import Mathlib

/-!
Verification of the expression engine of the gastown-calculator repository
(file `src/formula.ts`): the lexer `tokenize`, the variable extractor
`extractVariables`, and the recursive-descent evaluator `evaluateExpression`.

Modelling conventions:
* JavaScript `number` is modelled as `JSNum`: either the IEEE-754 NaN value
  (`JSNum.nan`) or a finite value represented as an exact rational
  (`JSNum.num q`).  The model is an exact-arithmetic idealization of float64:
  it has no rounding, no overflow and no signed infinities.  All operations
  that appear in the source and stay inside ℚ (addition, subtraction,
  multiplication, division with a nonzero divisor, negation, absolute value,
  integer powers) are modelled exactly, and NaN production/propagation
  follows the ECMAScript semantics of the corresponding operation.
* Operations whose finite result is irrational (`Math.sin`, `Math.cos`,
  `Math.tan`, `Math.log`, `Math.log10`, `Math.sqrt` on a non-square, and
  `Math.pow` with a positive base and non-integer exponent) cannot be
  represented in ℚ; in those positions the model returns an explicitly
  documented placeholder finite value.  Every NaN-or-not decision made by
  the source (domain guards, NaN propagation) is modelled faithfully; no
  theorem below depends on the placeholder finite values.
* Thrown JavaScript exceptions are modelled with `Except`: a `throw` in the
  source is an `Except.error` carrying an `EvalError` tag that names the
  source's error message.
* The source's undefined-variable check `token.name in variables` uses the
  JavaScript `in` operator, which consults the prototype chain: identifiers
  naming `Object.prototype` members (`toString`, `valueOf`, ...) pass the
  check even for `{}`.  The model carries that property-name set explicitly
  (`OBJECT_PROTO_PROPS`); the inherited value `variables[name]` is then a
  function object (or the prototype object), not a float64, and is
  represented by a documented placeholder on which no theorem depends.
* The recursive functions (`tokenize`'s scanning loop and the mutually
  recursive parser) are written with an explicit fuel parameter so that all
  definitions compute by kernel reduction; fuel exhaustion is a dedicated
  error that never occurs for the fuel budgets used by the entry points.
-/

deriving instance DecidableEq for Except

namespace Gastown

/-- A JavaScript `number` as used by the expression engine: NaN or a finite
value, the latter idealized as an exact rational. -/
inductive JSNum where
  | nan : JSNum
  | num (q : ℚ) : JSNum
deriving DecidableEq

/-- JavaScript `+` on numbers: NaN propagates, otherwise exact addition. -/
def jsAdd : JSNum → JSNum → JSNum
  | .num a, .num b => .num (a + b)
  | _, _ => .nan

/-- JavaScript binary `-` on numbers: NaN propagates, otherwise exact
subtraction. -/
def jsSub : JSNum → JSNum → JSNum
  | .num a, .num b => .num (a - b)
  | _, _ => .nan

/-- JavaScript `*` on numbers: NaN propagates, otherwise exact
multiplication. -/
def jsMul : JSNum → JSNum → JSNum
  | .num a, .num b => .num (a * b)
  | _, _ => .nan

/-- JavaScript unary `-` on numbers: NaN propagates, otherwise exact
negation. -/
def jsNeg : JSNum → JSNum
  | .num a => .num (-a)
  | .nan => .nan

/-- The division step of `parseTerm` in the source:
`left = right === 0 ? NaN : left / right`.  A zero divisor (the strict
equality `right === 0` is false when `right` is NaN) yields NaN; otherwise
JavaScript division, through which NaN propagates. -/
def jsDiv (left right : JSNum) : JSNum :=
  match right with
  | .num q => if q = 0 then .nan else
      match left with
      | .num p => .num (p / q)
      | .nan => .nan
  | .nan => .nan

/-- Placeholder for the finite value of `Math.pow` with a nonnegative base
and a non-integer exponent, which is irrational in general and hence not
representable in ℚ.  No theorem in this file depends on this value; it is
only reached when both operands are non-NaN. -/
def jsPowIrr (_base _exp : ℚ) : ℚ := 0

/-- `Math.pow` following ECMAScript `Number::exponentiate` on the modelled
fragment: a NaN exponent yields NaN; a zero exponent yields 1 (even for a
NaN base — this is the one exception to NaN propagation); then a NaN base
yields NaN; an integer exponent is computed exactly in ℚ; a negative base
with a non-integer exponent yields NaN; the remaining case (nonnegative
base, non-integer exponent) is irrational in general and uses the
`jsPowIrr` placeholder. -/
def jsPow (base exp : JSNum) : JSNum :=
  match exp with
  | .nan => .nan
  | .num e =>
    if e = 0 then .num 1
    else
      match base with
      | .nan => .nan
      | .num b =>
        if e.den = 1 then .num (b ^ e.num)
        else if b < 0 then .nan
        else .num (jsPowIrr b e)

/-- `Math.sin`: NaN propagates; the finite value is irrational in general
and is modelled by a placeholder.  No theorem depends on the placeholder. -/
def jsSin : JSNum → JSNum
  | .nan => .nan
  | .num _ => .num 0

/-- `Math.cos`: NaN propagates; finite value modelled by a placeholder. -/
def jsCos : JSNum → JSNum
  | .nan => .nan
  | .num _ => .num 0

/-- `Math.tan`: NaN propagates; finite value modelled by a placeholder. -/
def jsTan : JSNum → JSNum
  | .nan => .nan
  | .num _ => .num 0

/-- The `ln` case of `applyFunction` in the source:
`value <= 0 ? NaN : Math.log(value)`.  A NaN argument fails the guard and
`Math.log(NaN)` is NaN; a non-positive finite argument yields NaN by the
guard; the positive finite value of `Math.log` is irrational in general and
is modelled by a placeholder. -/
def jsLn : JSNum → JSNum
  | .nan => .nan
  | .num q => if q ≤ 0 then .nan else .num 0

/-- The `log` (base-10) case of `applyFunction`, with the same guard shape
as `jsLn`. -/
def jsLog : JSNum → JSNum
  | .nan => .nan
  | .num q => if q ≤ 0 then .nan else .num 0

/-- The `sqrt` case of `applyFunction` in the source:
`value < 0 ? NaN : Math.sqrt(value)`.  A NaN argument fails the guard and
`Math.sqrt(NaN)` is NaN; a negative finite argument yields NaN by the
guard; the nonnegative branch uses `Rat.sqrt` (exact when the result is
rational, an unused approximation otherwise). -/
def jsSqrt : JSNum → JSNum
  | .nan => .nan
  | .num q => if q < 0 then .nan else .num (Rat.sqrt q)

/-- `Math.abs`: NaN propagates, otherwise exact absolute value. -/
def jsAbs : JSNum → JSNum
  | .nan => .nan
  | .num q => .num |q|

/-- The token type of `formula.ts`.  `number` tokens store the already
parsed numeric value (the source stores `parseFloat(num)`, which can be
NaN), parentheses store their character. -/
inductive Token where
  | number (value : JSNum) : Token
  | variable (name : String) : Token
  | operator (value : Char) : Token
  | paren (value : Char) : Token
  | function (name : String) : Token
deriving DecidableEq

/-- The exceptions thrown by `formula.ts`, one constructor per `throw`
site, plus `outOfFuel` for the fuel-based encoding of recursion (never
produced under the entry points' fuel budgets). -/
inductive EvalError where
  | unexpectedCharacter (c : Char) : EvalError
  | undefinedVariable (name : String) : EvalError
  | expectedOpenParen (name : String) : EvalError
  | expectedCloseParen : EvalError
  | mismatchedParens : EvalError
  | unexpectedEndOfExpression : EvalError
  | unexpectedToken : EvalError
  | trailingTokens : EvalError
  | unknownFunction (name : String) : EvalError
  | outOfFuel : EvalError
deriving DecidableEq

/-- The registered function names (`const FUNCTIONS` in the source). -/
def FUNCTIONS : List String := ["sin", "cos", "tan", "ln", "log", "sqrt", "abs"]

/-- `applyFunction` from the source: dispatch on the function name, with a
default branch throwing `Unknown function`. -/
def applyFunction (name : String) (value : JSNum) : Except EvalError JSNum :=
  if name = "sin" then .ok (jsSin value)
  else if name = "cos" then .ok (jsCos value)
  else if name = "tan" then .ok (jsTan value)
  else if name = "ln" then .ok (jsLn value)
  else if name = "log" then .ok (jsLog value)
  else if name = "sqrt" then .ok (jsSqrt value)
  else if name = "abs" then .ok (jsAbs value)
  else .error (.unknownFunction name)

/-- The character class of the JavaScript regexp `\s` (as used by
`expression.replace(/\s+/g, "")`). -/
def isJSWhitespace (c : Char) : Bool :=
  decide (c = ' ' ∨ c = '\t' ∨ c = '\n' ∨ c = '\x0b' ∨ c = '\x0c' ∨ c = '\r' ∨
    c = ' ' ∨ c = ' ' ∨ (' ' ≤ c ∧ c ≤ ' ') ∨ c = ' ' ∨
    c = ' ' ∨ c = ' ' ∨ c = ' ' ∨ c = '　' ∨ c = '﻿')

/-- The source's digit test `ch >= "0" && ch <= "9"` (code-unit
comparison). -/
def isDigitC (c : Char) : Bool := decide ('0' ≤ c ∧ c ≤ '9')

/-- The source's numeral-character test: digit or `.`. -/
def isNumChar (c : Char) : Bool := isDigitC c || decide (c = '.')

/-- The source's identifier-start test: letter or `_`. -/
def isIdStartC (c : Char) : Bool :=
  decide (('a' ≤ c ∧ c ≤ 'z') ∨ ('A' ≤ c ∧ c ≤ 'Z') ∨ c = '_')

/-- The source's identifier-continuation test: letter, digit or `_`. -/
def isIdC (c : Char) : Bool := isIdStartC c || isDigitC c

/-- Numeric value of a digit character. -/
def digitVal (c : Char) : ℕ := c.toNat - '0'.toNat

/-- Value of a digit string read in base 10. -/
def intOfDigits (l : List Char) : ℕ := l.foldl (fun a c => 10 * a + digitVal c) 0

/-- Value of a digit string read as a fractional part. -/
def fracOfDigits (l : List Char) : ℚ := (intOfDigits l : ℚ) / ((10 : ℚ) ^ l.length)

/-- Follows the spec's description of a valid decimal literal (the
unsigned, exponent-free forms of ECMAScript `StrDecimalLiteral` that are
relevant to the lexer's digit/dot runs): `digits`, `digits . digits?`, or
`. digits`.  This is the spec-side validity notion against which the
source-side `parseFloatDD` is compared by the longest-valid-prefix
theorem. -/
def specValidNumLit (l : List Char) : Bool :=
  if (l.takeWhile isDigitC).isEmpty then
    match l.dropWhile isDigitC with
    | '.' :: t => !t.isEmpty && t.all isDigitC
    | _ => false
  else
    match l.dropWhile isDigitC with
    | [] => true
    | '.' :: t => t.all isDigitC
    | _ => false

/-- The decimal value of a valid numeric literal (spec-side companion of
`specValidNumLit`): integer part plus fractional part. -/
def specNumLitValue (l : List Char) : ℚ :=
  match l.dropWhile isDigitC with
  | '.' :: t => (intOfDigits (l.takeWhile isDigitC) : ℚ) + fracOfDigits t
  | _ => intOfDigits (l.takeWhile isDigitC)

/-- JavaScript `parseFloat` restricted to the strings the lexer can hand it:
nonempty maximal runs of digits and `.` characters.  Per ECMAScript,
`parseFloat` converts the longest prefix that is a valid decimal literal
and returns NaN when there is none.  On digit/dot strings the valid
prefixes have the form `digits`, `digits.digits?`, or `.digits`, so e.g.
`"1.2.3"` parses as `1.2` and `"."` parses as NaN. -/
def parseFloatDD (l : List Char) : JSNum :=
  let ip := l.takeWhile isDigitC
  let rest := l.dropWhile isDigitC
  if ip.isEmpty then
    match rest with
    | '.' :: t =>
      let fp := t.takeWhile isDigitC
      if fp.isEmpty then .nan else .num (fracOfDigits fp)
    | _ => .nan
  else
    match rest with
    | '.' :: t => .num ((intOfDigits ip : ℚ) + fracOfDigits (t.takeWhile isDigitC))
    | _ => .num (intOfDigits ip)

/-- The scanning loop of `tokenize`, over the whitespace-stripped character
list, with fuel (each iteration consumes at least one character, so
`length + 1` fuel always suffices).  The classification branches are in the
source's order: numeral, identifier (split into function/variable by
`FUNCTIONS.includes`), operator, parenthesis, otherwise `throw`. -/
def tokenizeCore : ℕ → List Char → Except EvalError (List Token)
  | 0, _ => .error .outOfFuel
  | _ + 1, [] => .ok []
  | fuel + 1, c :: cs =>
    if isNumChar c then
      match tokenizeCore fuel (cs.dropWhile isNumChar) with
      | .error e => .error e
      | .ok ts => .ok (.number (parseFloatDD (c :: cs.takeWhile isNumChar)) :: ts)
    else if isIdStartC c then
      match tokenizeCore fuel (cs.dropWhile isIdC) with
      | .error e => .error e
      | .ok ts =>
        .ok ((if (⟨c :: cs.takeWhile isIdC⟩ : String) ∈ FUNCTIONS then
                Token.function ⟨c :: cs.takeWhile isIdC⟩
              else
                Token.variable ⟨c :: cs.takeWhile isIdC⟩) :: ts)
    else if c = '+' ∨ c = '-' ∨ c = '*' ∨ c = '/' ∨ c = '^' then
      match tokenizeCore fuel cs with
      | .error e => .error e
      | .ok ts => .ok (.operator c :: ts)
    else if c = '(' ∨ c = ')' then
      match tokenizeCore fuel cs with
      | .error e => .error e
      | .ok ts => .ok (.paren c :: ts)
    else .error (.unexpectedCharacter c)

/-- The whitespace removal `expression.replace(/\s+/g, "")`. -/
def stripWhitespace (s : String) : String := ⟨s.data.filter (fun c => !isJSWhitespace c)⟩

/-- `tokenize` from the source: strip all whitespace, then scan. -/
def tokenize (expression : String) : Except EvalError (List Token) :=
  tokenizeCore ((stripWhitespace expression).data.length + 1) (stripWhitespace expression).data

/-- One step of collecting variable names into a JavaScript `Set` (insertion
order, first occurrence wins). -/
def varStep (acc : List String) (t : Token) : List String :=
  match t with
  | .variable n => if n ∈ acc then acc else acc ++ [n]
  | _ => acc

/-- The variable-name collection loop of `extractVariables`. -/
def collectVars (ts : List Token) : List String := ts.foldl varStep []

/-- Lexicographic comparison of character lists, the comparison used by
JavaScript's default `Array.prototype.sort` on strings (code-unit order;
identical to code-point order on the ASCII identifiers the lexer
produces). -/
def strLeb : List Char → List Char → Bool
  | [], _ => true
  | _ :: _, [] => false
  | a :: as, b :: bs => if a < b then true else if b < a then false else strLeb as bs

/-- The string order induced by `strLeb`. -/
def strLe (a b : String) : Prop := strLeb a.data b.data = true

instance : DecidableRel strLe :=
  fun a b => inferInstanceAs (Decidable (strLeb a.data b.data = true))

/-- JavaScript `Array.prototype.sort` on strings: lexicographic sorting,
modelled by insertion sort. -/
def sortStrings (l : List String) : List String := List.insertionSort strLe l

/-- `extractVariables` from the source: tokenize, collect `variable` token
names into a set, return them sorted; on any tokenizer exception (the
`try/catch`), return the empty list. -/
def extractVariables (expression : String) : List String :=
  match tokenize expression with
  | .error _ => []
  | .ok ts => sortStrings (collectVars ts)

/-- The identifier-shaped property names every plain JavaScript object
literal inherits from `%Object.prototype%`.  The source's check
`token.name in variables` uses the `in` operator, which consults the
prototype chain, so these names pass the check even when the caller
supplies `{}`. -/
def OBJECT_PROTO_PROPS : List String :=
  ["constructor", "hasOwnProperty", "isPrototypeOf", "propertyIsEnumerable",
   "toLocaleString", "toString", "valueOf", "__proto__", "__defineGetter__",
   "__defineSetter__", "__lookupGetter__", "__lookupSetter__"]

/-- Placeholder for the JavaScript value `variables[name]` when `name` is
only an inherited `Object.prototype` property: the real value is a function
object (or the prototype object for `__proto__`), which is not a float64 at
all.  The engine does not throw there; subsequent arithmetic on such a
value mostly yields NaN via `ToNumber` (binary `+` concatenates strings
instead, which `JSNum` cannot represent).  No theorem depends on this
value, only on the fact that no exception is raised. -/
def protoLookupValue (_name : String) : JSNum := .nan

/-- Which of the mutually recursive parser procedures of
`evaluateExpression` is running: the grammar levels `parseAddSub`,
`parseTerm`, `parsePower`, `parseUnary`, `parseAtom`, plus the states of
the two `while` loops (which carry their accumulated left operand). -/
inductive PK where
  | addSub : PK
  | addSubLoop (left : JSNum) : PK
  | term : PK
  | termLoop (left : JSNum) : PK
  | power : PK
  | unary : PK
  | atom : PK

/-- Exception-propagating sequencing for parser results (a thrown exception
in a JavaScript subcall propagates to the caller). -/
def contGo (r : Except EvalError (JSNum × List Token))
    (f : JSNum → List Token → Except EvalError (JSNum × List Token)) :
    Except EvalError (JSNum × List Token) :=
  match r with
  | .error e => .error e
  | .ok (v, rest) => f v rest

/-- The recursive-descent parser/evaluator of `evaluateExpression`, one
step per `PK` state, written on the remaining token list (the source's
`pos` cursor into a fixed array is equivalent to passing the remaining
suffix).  `vars` is the caller-supplied variable mapping
(`Record<string, number>`); its own entries are consulted first, and the
membership test `token.name in variables` additionally accepts the
inherited `OBJECT_PROTO_PROPS` names (JavaScript `in` walks the prototype
chain).  Fuel makes the recursion structural. -/
def parseGo (vars : List (String × JSNum)) :
    ℕ → PK → List Token → Except EvalError (JSNum × List Token)
  | 0, _, _ => .error .outOfFuel
  | fuel + 1, .addSub, ts =>
    contGo (parseGo vars fuel .term ts) (fun left r =>
      parseGo vars fuel (.addSubLoop left) r)
  | fuel + 1, .addSubLoop left, ts =>
    match ts with
    | .operator c :: rest =>
      if c = '+' then
        contGo (parseGo vars fuel .term rest) (fun right r =>
          parseGo vars fuel (.addSubLoop (jsAdd left right)) r)
      else if c = '-' then
        contGo (parseGo vars fuel .term rest) (fun right r =>
          parseGo vars fuel (.addSubLoop (jsSub left right)) r)
      else .ok (left, .operator c :: rest)
    | _ => .ok (left, ts)
  | fuel + 1, .term, ts =>
    contGo (parseGo vars fuel .power ts) (fun left r =>
      parseGo vars fuel (.termLoop left) r)
  | fuel + 1, .termLoop left, ts =>
    match ts with
    | .operator c :: rest =>
      if c = '*' then
        contGo (parseGo vars fuel .power rest) (fun right r =>
          parseGo vars fuel (.termLoop (jsMul left right)) r)
      else if c = '/' then
        contGo (parseGo vars fuel .power rest) (fun right r =>
          parseGo vars fuel (.termLoop (jsDiv left right)) r)
      else .ok (left, .operator c :: rest)
    | _ => .ok (left, ts)
  | fuel + 1, .power, ts =>
    contGo (parseGo vars fuel .unary ts) (fun base r =>
      match r with
      | .operator c :: r2 =>
        if c = '^' then
          contGo (parseGo vars fuel .power r2) (fun exp r3 =>
            .ok (jsPow base exp, r3))
        else .ok (base, .operator c :: r2)
      | _ => .ok (base, r))
  | fuel + 1, .unary, ts =>
    match ts with
    | .operator c :: rest =>
      if c = '-' then
        contGo (parseGo vars fuel .unary rest) (fun v r => .ok (jsNeg v, r))
      else if c = '+' then
        parseGo vars fuel .unary rest
      else
        parseGo vars fuel .atom (.operator c :: rest)
    | _ => parseGo vars fuel .atom ts
  | fuel + 1, .atom, ts =>
    match ts with
    | [] => .error .unexpectedEndOfExpression
    | .number v :: rest => .ok (v, rest)
    | .variable name :: rest =>
      match List.lookup name vars with
      | some v => .ok (v, rest)
      | none =>
        if name ∈ OBJECT_PROTO_PROPS then .ok (protoLookupValue name, rest)
        else .error (.undefinedVariable name)
    | .function name :: rest =>
      match rest with
      | .paren c :: r2 =>
        if c = '(' then
          contGo (parseGo vars fuel .addSub r2) (fun arg r3 =>
            match r3 with
            | .paren c2 :: r4 =>
              if c2 = ')' then
                match applyFunction name arg with
                | .error e => .error e
                | .ok v => .ok (v, r4)
              else .error .expectedCloseParen
            | _ => .error .expectedCloseParen)
        else .error (.expectedOpenParen name)
      | _ => .error (.expectedOpenParen name)
    | .operator _ :: _ => .error .unexpectedToken
    | .paren c :: rest =>
      if c = '(' then
        contGo (parseGo vars fuel .addSub rest) (fun v r2 =>
          match r2 with
          | .paren c2 :: r3 =>
            if c2 = ')' then .ok (v, r3) else .error .mismatchedParens
          | _ => .error .mismatchedParens)
      else .error .unexpectedToken

/-- `evaluateExpression` from the source: tokenize, run `parseAddSub` from
the start, and fail with `Unexpected tokens after expression` when tokens
remain.  The fuel budget is generous: each grammar level consumes fuel at
most a bounded number of times per token. -/
def evaluateExpression (expression : String) (vars : List (String × JSNum)) :
    Except EvalError JSNum :=
  match tokenize expression with
  | .error e => .error e
  | .ok tokens =>
    match parseGo vars (10 * tokens.length + 10) .addSub tokens with
    | .error e => .error e
    | .ok (result, rest) =>
      match rest with
      | [] => .ok result
      | _ => .error .trailingTokens

/-- The invariant that every `function` token in a token list carries a
registered function name. -/
def TokensOk (ts : List Token) : Prop :=
  ∀ n, Token.function n ∈ ts → n ∈ FUNCTIONS

/-- A parser result is well-behaved when it is not the `Unknown function`
error and, on success, the remaining token suffix still satisfies
`TokensOk`. -/
def ResultOk (r : Except EvalError (JSNum × List Token)) : Prop :=
  (∀ n, r ≠ .error (.unknownFunction n)) ∧
  (∀ v rest, r = .ok (v, rest) → TokensOk rest)

section MainTheorems

attribute [local semireducible] Rat.add Rat.mul Rat.inv Rat.sub

theorem stripWhitespace_idem (s : String) :
    stripWhitespace (stripWhitespace s) = stripWhitespace s := by
  simp [stripWhitespace, List.filter_filter]

/-- C9: tokenize is insensitive to whitespace: it equals tokenize of the
input with every whitespace character deleted, so whitespace inside what
would otherwise be separate tokens merges them: `"1 2"` lexes as the single
number 12 and evaluates to 12. -/
theorem tokenize_whitespace_insensitive :
    (∀ s : String, tokenize s = tokenize (stripWhitespace s)) ∧
    tokenize "1 2" = .ok [.number (.num 12)] ∧
    evaluateExpression "1 2" [] = .ok (.num 12) := by
  refine ⟨fun s => ?_, by decide, by decide⟩
  show tokenizeCore _ _ = tokenizeCore _ _
  rw [stripWhitespace_idem]

/-- C2: the power operator is strictly right-associative: on the token
stream of `a ^ b ^ c` the evaluator computes `jsPow a (jsPow b c)`, for all
values `a b c` (including NaN) and any variable mapping; in particular
`evaluateExpression "2 ^ 3 ^ 2" {}` is 512. -/
theorem power_right_associative :
    (∀ (vars : List (String × JSNum)) (a b c : JSNum),
      parseGo vars 20 .addSub
        [.number a, .operator '^', .number b, .operator '^', .number c] =
        .ok (jsPow a (jsPow b c), [])) ∧
    evaluateExpression "2 ^ 3 ^ 2" [] = .ok (.num 512) := by
  exact ⟨fun vars a b c => rfl, by decide⟩

/-- C3: unary minus on the left operand of `^` binds tighter than `^`: on
the token stream of `-x ^ y` the evaluator computes `jsPow (jsNeg x) y`
(the parse `(-x)^y`), for all values `x y` and any variable mapping; in
particular `evaluateExpression "-2^2" {}` is 4, not -4. -/
theorem unary_minus_binds_tighter_than_power :
    (∀ (vars : List (String × JSNum)) (x y : JSNum),
      parseGo vars 20 .addSub
        [.operator '-', .number x, .operator '^', .number y] =
        .ok (jsPow (jsNeg x) y, [])) ∧
    evaluateExpression "-2^2" [] = .ok (.num 4) := by
  exact ⟨fun vars x y => rfl, by decide⟩

/-- C4 counterexample: NaN does NOT propagate through every subsequent
operation.  `1/0` evaluates to NaN, yet `(1/0)^0` evaluates to 1 (ECMAScript
`Math.pow` returns 1 whenever the exponent is zero, even for a NaN base),
contradicting the claim that `evaluateExpression "(1/0)^0" {}` is NaN. -/
theorem nan_propagation_counterexample :
    evaluateExpression "1/0" [] = .ok .nan ∧
    evaluateExpression "(1/0)^0" [] = .ok (.num 1) ∧
    JSNum.num 1 ≠ JSNum.nan := by
  exact ⟨by decide, by decide, by decide⟩

/-- C4 amended: once a subexpression produces NaN, every subsequent
operation applied to it during evaluation also yields NaN, with one
exception: exponentiation with a zero exponent, where `Math.pow(NaN, 0)`
is 1.  All arithmetic operators, unary minus, exponentiation with a
non-zero (or NaN) exponent, and every registered function propagate a NaN
operand to a NaN result. -/
theorem nan_propagation_amended (e : JSNum) (he : e ≠ .num 0)
    (name : String) (hname : name ∈ FUNCTIONS) :
    (∀ v : JSNum,
      jsAdd .nan v = .nan ∧ jsAdd v .nan = .nan ∧
      jsSub .nan v = .nan ∧ jsSub v .nan = .nan ∧
      jsMul .nan v = .nan ∧ jsMul v .nan = .nan ∧
      jsDiv .nan v = .nan ∧ jsDiv v .nan = .nan ∧
      jsPow v .nan = .nan) ∧
    jsNeg .nan = .nan ∧
    jsPow .nan e = .nan ∧
    applyFunction name .nan = .ok .nan := by
  refine ⟨fun v => ?_, rfl, ?_, ?_⟩
  · cases v <;> simp [jsAdd, jsSub, jsMul, jsDiv, jsPow]
  · cases e with
    | nan => rfl
    | num q =>
      have hq : ¬ q = 0 := fun h => he (by rw [h])
      simp [jsPow, hq]
  · simp only [FUNCTIONS, List.mem_cons, List.not_mem_nil, or_false] at hname
    rcases hname with rfl | rfl | rfl | rfl | rfl | rfl | rfl <;>
      simp [applyFunction, jsSin, jsCos, jsTan, jsLn, jsLog, jsSqrt, jsAbs]

theorem nan_propagation_amended_witness :
    (JSNum.num 1 ≠ JSNum.num 0 ∧ "sin" ∈ FUNCTIONS) ∧
    (jsPow .nan (.num 1) = .nan ∧ applyFunction "sin" .nan = .ok .nan) := by
  have h := nan_propagation_amended (.num 1) (by decide) "sin" (by decide)
  exact ⟨⟨by decide, by decide⟩, h.2.2.1, h.2.2.2⟩

theorem takeWhile_append_of_all (p : Char → Bool) :
    ∀ (xs ys : List Char), (∀ c ∈ xs, p c = true) →
      (xs ++ ys).takeWhile p = xs ++ ys.takeWhile p := by
  intro xs
  induction xs with
  | nil => intro ys _; rfl
  | cons x xs ih =>
    intro ys h
    have hx : p x = true := h x (List.mem_cons_self x xs)
    simp [List.takeWhile_cons, hx, ih ys (fun c hc => h c (List.mem_cons_of_mem x hc))]

theorem dropWhile_append_of_all (p : Char → Bool) :
    ∀ (xs ys : List Char), (∀ c ∈ xs, p c = true) →
      (xs ++ ys).dropWhile p = ys.dropWhile p := by
  intro xs
  induction xs with
  | nil => intro ys _; rfl
  | cons x xs ih =>
    intro ys h
    have hx : p x = true := h x (List.mem_cons_self x xs)
    simp [List.dropWhile_cons, hx, ih ys (fun c hc => h c (List.mem_cons_of_mem x hc))]

theorem takeWhile_eq_nil_of_head (p : Char → Bool) (l : List Char)
    (h : ∀ c, l.head? = some c → p c = false) : l.takeWhile p = [] := by
  cases l with
  | nil => rfl
  | cons x xs => simp [List.takeWhile_cons, h x rfl]

theorem dropWhile_eq_self_of_head (p : Char → Bool) (l : List Char)
    (h : ∀ c, l.head? = some c → p c = false) : l.dropWhile p = l := by
  cases l with
  | nil => rfl
  | cons x xs => simp [List.dropWhile_cons, h x rfl]

theorem dropWhile_head_false (p : Char → Bool) :
    ∀ (l : List Char) (c : Char), (l.dropWhile p).head? = some c → p c = false := by
  intro l
  induction l with
  | nil => intro c h; cases h
  | cons x xs ih =>
    intro c h
    by_cases hx : p x = true
    · rw [List.dropWhile_cons, if_pos hx] at h
      exact ih c h
    · rw [List.dropWhile_cons, if_neg hx] at h
      rw [List.head?_cons] at h
      injection h with h
      subst h
      exact Bool.eq_false_iff.2 hx

theorem head_false_of_takeWhile_nil (p : Char → Bool) (l : List Char)
    (h : l.takeWhile p = []) : ∀ c, l.head? = some c → p c = false := by
  intro c hc
  cases l with
  | nil => cases hc
  | cons x xs =>
    rw [List.head?_cons] at hc
    injection hc with hc
    rw [← hc]
    by_cases hx : p x = true
    · rw [List.takeWhile_cons, if_pos hx] at h
      cases h
    · exact Bool.eq_false_iff.2 hx

theorem mem_of_head_some {u : List Char} {c : Char} (h : u.head? = some c) : c ∈ u := by
  cases u with
  | nil => cases h
  | cons a u2 =>
    rw [List.head?_cons] at h
    injection h with h
    exact h ▸ List.mem_cons_self a u2

theorem append_of_length_le {l p q r r2 : List Char}
    (hp : l = p ++ r) (hq : l = q ++ r2) (hlen : p.length ≤ q.length) :
    ∃ m, q = p ++ m ∧ r = m ++ r2 := by
  have h1 : l.take p.length = p := by rw [hp]; exact List.take_left p r
  have h2 : l.take q.length = q := by rw [hq]; exact List.take_left q r2
  have h3 : q.take p.length = p := by
    rw [← h2, List.take_take, inf_eq_left.mpr hlen, h1]
  have hqm : q = p ++ q.drop p.length := by
    have h4 := (List.take_append_drop p.length q).symm
    rw [h3] at h4
    exact h4
  refine ⟨q.drop p.length, hqm, ?_⟩
  have hcat : p ++ r = p ++ (q.drop p.length ++ r2) :=
    calc p ++ r = l := hp.symm
    _ = q ++ r2 := hq
    _ = (p ++ q.drop p.length) ++ r2 := by rw [← hqm]
    _ = p ++ (q.drop p.length ++ r2) := List.append_assoc _ _ _
  exact List.append_cancel_left hcat

theorem numChar_digit_or_dot {c : Char} (h : isNumChar c = true) :
    isDigitC c = true ∨ c = '.' := by
  simpa [isNumChar] using h

/-- The source-side `parseFloatDD` agrees with the spec-side
longest-valid-prefix description of `parseFloat` on every digit/dot
character list: either some prefix is a valid decimal literal, in which
case `parseFloatDD` returns the value of the longest such prefix, or no
prefix is valid and `parseFloatDD` returns NaN. -/
theorem parseFloatDD_longest_valid (l : List Char)
    (hnum : ∀ c ∈ l, isNumChar c = true) :
    (∃ p r, l = p ++ r ∧ specValidNumLit p = true ∧
        parseFloatDD l = .num (specNumLitValue p) ∧
        ∀ q r2, l = q ++ r2 → specValidNumLit q = true → q.length ≤ p.length) ∨
    (parseFloatDD l = .nan ∧
      ∀ q r2, l = q ++ r2 → specValidNumLit q = false) := by
  have hsplit : l.takeWhile isDigitC ++ l.dropWhile isDigitC = l :=
    List.takeWhile_append_dropWhile isDigitC l
  have hipall : ∀ c ∈ l.takeWhile isDigitC, isDigitC c = true :=
    fun c hc => List.mem_takeWhile_imp hc
  have hdot : ¬(isDigitC '.' = true) := by decide
  rcases hdw : l.dropWhile isDigitC with _ | ⟨c, t⟩
  · by_cases hle : l = []
    · right
      subst hle
      exact ⟨rfl, fun q r2 hq => by
        rw [(List.append_eq_nil.1 hq.symm).1]; rfl⟩
    · left
      have hld : l = l.takeWhile isDigitC := by
        have h0 := hsplit.symm
        rw [hdw, List.append_nil] at h0
        exact h0
      have hie : (l.takeWhile isDigitC).isEmpty = false := by
        rw [← hld]
        cases l with
        | nil => exact absurd rfl hle
        | cons a as => rfl
      refine ⟨l, [], (List.append_nil l).symm, ?_, ?_, fun q r2 hq _ => ?_⟩
      · simp [specValidNumLit, hdw, hie]
      · simp [parseFloatDD, specNumLitValue, hdw, hie]
      · rw [hq, List.length_append]
        omega
  · have hcd : isDigitC c = false :=
      dropWhile_head_false isDigitC l c (by rw [hdw]; rfl)
    have hcl : c ∈ l := by
      rw [← hsplit, hdw]
      exact List.mem_append.2 (Or.inr (List.mem_cons_self c t))
    have hcdot : c = '.' := by
      rcases numChar_digit_or_dot (hnum c hcl) with h | h
      · rw [hcd] at h; exact absurd h Bool.false_ne_true
      · exact h
    subst hcdot
    have htall : ∀ x ∈ t, isNumChar x = true := by
      intro x hx
      apply hnum
      rw [← hsplit, hdw]
      exact List.mem_append.2 (Or.inr (List.mem_cons_of_mem _ hx))
    have hfall : ∀ x ∈ t.takeWhile isDigitC, isDigitC x = true :=
      fun x hx => List.mem_takeWhile_imp hx
    have htsplit : t.takeWhile isDigitC ++ t.dropWhile isDigitC = t :=
      List.takeWhile_append_dropWhile isDigitC t
    have huhead : ∀ x, (t.dropWhile isDigitC).head? = some x → x = '.' := by
      intro x hx
      have h1 : isDigitC x = false := dropWhile_head_false isDigitC t x hx
      have h2 : x ∈ l := by
        rw [← hsplit, hdw]
        refine List.mem_append.2 (Or.inr (List.mem_cons_of_mem _ ?_))
        rw [← htsplit]
        exact List.mem_append.2 (Or.inr (mem_of_head_some hx))
      rcases numChar_digit_or_dot (hnum x h2) with h3 | h3
      · rw [h1] at h3; exact absurd h3 Bool.false_ne_true
      · exact h3
    by_cases hipe : l.takeWhile isDigitC = []
    · have hld : l = '.' :: t := by rw [← hsplit, hdw, hipe, List.nil_append]
      by_cases hfe : t.takeWhile isDigitC = []
      · right
        constructor
        · simp [parseFloatDD, hipe, hdw, hfe]
        · intro q r2 hq
          rcases hqc : q with _ | ⟨a, q2⟩
          · rfl
          · have hl2 : '.' :: t = a :: (q2 ++ r2) := by
              rw [← hld, hq, hqc, List.cons_append]
            injection hl2 with ha ht2
            subst ha
            show specValidNumLit ('.' :: q2) = false
            rcases hq2 : q2 with _ | ⟨b, q3⟩
            · rfl
            · have hb : isDigitC b = false := by
                apply head_false_of_takeWhile_nil isDigitC t hfe
                rw [ht2, hq2]
                rfl
              simp [specValidNumLit, List.takeWhile_cons, List.dropWhile_cons, hdot, hb]
      · have hfie : (t.takeWhile isDigitC).isEmpty = false := by
          rcases hh : t.takeWhile isDigitC with _ | _
          · exact absurd hh hfe
          · rfl
        have hlp : l = ('.' :: t.takeWhile isDigitC) ++ t.dropWhile isDigitC := by
          rw [hld, List.cons_append, htsplit]
        left
        refine ⟨'.' :: t.takeWhile isDigitC, t.dropWhile isDigitC, hlp, ?_, ?_, ?_⟩
        · simp [specValidNumLit, List.takeWhile_cons, List.dropWhile_cons, hdot, hfie,
            List.all_eq_true.2 hfall]
        · simp [parseFloatDD, specNumLitValue, hipe, hdw, hfie,
            List.takeWhile_cons, List.dropWhile_cons, hdot, intOfDigits]
        · intro q r2 hq hv
          by_contra hlen
          push_neg at hlen
          obtain ⟨m, hqm, hrm⟩ := append_of_length_le hlp hq (le_of_lt hlen)
          rcases hmz : m with _ | ⟨b, m2⟩
          · rw [hmz, List.append_nil] at hqm
            rw [hqm] at hlen
            omega
          · have hb : b = '.' := huhead b (by rw [hrm, hmz]; rfl)
            subst hb
            rw [hqm, hmz, List.cons_append] at hv
            have hfalse : (t.takeWhile isDigitC ++ '.' :: m2).all isDigitC = false := by
              simp [List.all_append, (by decide : isDigitC '.' = false)]
            simp [specValidNumLit, List.takeWhile_cons, List.dropWhile_cons, hdot,
              hfalse] at hv
    · have hie : (l.takeWhile isDigitC).isEmpty = false := by
        rcases hh : l.takeWhile isDigitC with _ | _
        · exact absurd hh hipe
        · rfl
      have hld : l = l.takeWhile isDigitC ++ '.' :: t := by
        have h0 := hsplit.symm
        rw [hdw] at h0
        exact h0
      have hlp : l = (l.takeWhile isDigitC ++ '.' :: t.takeWhile isDigitC) ++
          t.dropWhile isDigitC := by
        conv_lhs => rw [hld]
        rw [List.append_assoc, List.cons_append, htsplit]
      have htw : (l.takeWhile isDigitC ++ '.' :: t.takeWhile isDigitC).takeWhile isDigitC =
          l.takeWhile isDigitC := by
        rw [takeWhile_append_of_all isDigitC _ _ hipall, List.takeWhile_cons, if_neg hdot,
          List.append_nil]
      have hdwp : (l.takeWhile isDigitC ++ '.' :: t.takeWhile isDigitC).dropWhile isDigitC =
          '.' :: t.takeWhile isDigitC := by
        rw [dropWhile_append_of_all isDigitC _ _ hipall, List.dropWhile_cons, if_neg hdot]
      left
      refine ⟨l.takeWhile isDigitC ++ '.' :: t.takeWhile isDigitC,
        t.dropWhile isDigitC, hlp, ?_, ?_, ?_⟩
      · simp [specValidNumLit, htw, hdwp, hie, List.all_eq_true.2 hfall]
      · simp [parseFloatDD, specNumLitValue, hdw, hie, htw, hdwp]
      · intro q r2 hq hv
        by_contra hlen
        push_neg at hlen
        obtain ⟨m, hqm, hrm⟩ := append_of_length_le hlp hq (le_of_lt hlen)
        rcases hmz : m with _ | ⟨b, m2⟩
        · rw [hmz, List.append_nil] at hqm
          rw [hqm] at hlen
          omega
        · have hb : b = '.' := huhead b (by rw [hrm, hmz]; rfl)
          subst hb
          rw [hqm, hmz] at hv
          have hq2 : (l.takeWhile isDigitC ++ '.' :: t.takeWhile isDigitC) ++ '.' :: m2 =
              l.takeWhile isDigitC ++ '.' :: (t.takeWhile isDigitC ++ '.' :: m2) := by
            rw [List.append_assoc, List.cons_append]
          rw [hq2] at hv
          have htw2 : (l.takeWhile isDigitC ++
              '.' :: (t.takeWhile isDigitC ++ '.' :: m2)).takeWhile isDigitC =
              l.takeWhile isDigitC := by
            rw [takeWhile_append_of_all isDigitC _ _ hipall, List.takeWhile_cons,
              if_neg hdot, List.append_nil]
          have hdw2 : (l.takeWhile isDigitC ++
              '.' :: (t.takeWhile isDigitC ++ '.' :: m2)).dropWhile isDigitC =
              '.' :: (t.takeWhile isDigitC ++ '.' :: m2) := by
            rw [dropWhile_append_of_all isDigitC _ _ hipall, List.dropWhile_cons,
              if_neg hdot]
          have hfalse : (t.takeWhile isDigitC ++ '.' :: m2).all isDigitC = false := by
            simp [List.all_append, (by decide : isDigitC '.' = false)]
          simp [specValidNumLit, htw2, hdw2, hie, hfalse] at hv

/-- C5 counterexample: `evaluateExpression "1.2.3" {}` does not return NaN:
JavaScript `parseFloat` converts the longest valid prefix of the malformed
numeral, so the token's value is 1.2 and that is the returned value. -/
theorem malformed_numeral_counterexample :
    evaluateExpression "1.2.3" [] ≠ .ok .nan ∧
    evaluateExpression "1.2.3" [] = .ok (.num (6 / 5)) := by
  exact ⟨by decide, by decide⟩

/-- C5 amended: every numeral — any nonempty maximal run of digit/dot
characters, so in particular every numeral with more than one `.` — is
accepted by the scanner as a single `Number` token (the following
character, if any, starts a new token), and the numeric-parse step
(`parseFloat`) never raises a structural error: it yields the value of
the longest prefix that is a valid decimal literal, or NaN when no prefix
is valid; hence `evaluateExpression "1.2.3" {}` returns 1.2, not NaN. -/
theorem malformed_numeral_amended (l rest : List Char) (fuel : ℕ)
    (hne : l ≠ []) (hnum : ∀ c ∈ l, isNumChar c = true)
    (hrest : ∀ c, rest.head? = some c → isNumChar c = false) :
    (tokenizeCore (fuel + 1) (l ++ rest) =
      match tokenizeCore fuel rest with
      | .error e => .error e
      | .ok ts => .ok (.number (parseFloatDD l) :: ts)) ∧
    ((∃ p r, l = p ++ r ∧ specValidNumLit p = true ∧
        parseFloatDD l = .num (specNumLitValue p) ∧
        ∀ q r2, l = q ++ r2 → specValidNumLit q = true → q.length ≤ p.length) ∨
      (parseFloatDD l = .nan ∧
        ∀ q r2, l = q ++ r2 → specValidNumLit q = false)) ∧
    tokenize "1.2.3" = .ok [.number (.num (6 / 5))] ∧
    evaluateExpression "1.2.3" [] = .ok (.num (6 / 5)) := by
  refine ⟨?_, parseFloatDD_longest_valid l hnum, by decide, by decide⟩
  cases l with
  | nil => exact absurd rfl hne
  | cons c cs =>
    have hc : isNumChar c = true := hnum c (List.mem_cons_self c cs)
    have hcs : ∀ x ∈ cs, isNumChar x = true :=
      fun x hx => hnum x (List.mem_cons_of_mem c hx)
    have htw : (cs ++ rest).takeWhile isNumChar = cs := by
      rw [takeWhile_append_of_all isNumChar cs rest hcs,
        takeWhile_eq_nil_of_head isNumChar rest hrest, List.append_nil]
    have hdw : (cs ++ rest).dropWhile isNumChar = rest := by
      rw [dropWhile_append_of_all isNumChar cs rest hcs,
        dropWhile_eq_self_of_head isNumChar rest hrest]
    show tokenizeCore (fuel + 1) (c :: (cs ++ rest)) = _
    simp only [tokenizeCore, if_pos hc, htw, hdw]

theorem malformed_numeral_amended_witness :
    (tokenizeCore (1 + 1) (['1', '.', '2', '.', '3'] ++ []) =
      match tokenizeCore 1 [] with
      | .error e => .error e
      | .ok ts => .ok (.number (parseFloatDD ['1', '.', '2', '.', '3']) :: ts)) ∧
    ((∃ p r, ['1', '.', '2', '.', '3'] = p ++ r ∧ specValidNumLit p = true ∧
        parseFloatDD ['1', '.', '2', '.', '3'] = .num (specNumLitValue p) ∧
        ∀ q r2, ['1', '.', '2', '.', '3'] = q ++ r2 → specValidNumLit q = true →
          q.length ≤ p.length) ∨
      (parseFloatDD ['1', '.', '2', '.', '3'] = .nan ∧
        ∀ q r2, ['1', '.', '2', '.', '3'] = q ++ r2 → specValidNumLit q = false)) ∧
    tokenize "1.2.3" = .ok [.number (.num (6 / 5))] ∧
    evaluateExpression "1.2.3" [] = .ok (.num (6 / 5)) :=
  malformed_numeral_amended ['1', '.', '2', '.', '3'] [] 1 (by decide) (by decide)
    (by decide)

/-- C1: mathematically undefined operations produce NaN as a normal
(`.ok`, non-raised) result: division by a zero divisor yields NaN for any
dividend, `sqrt` of a negative argument yields NaN, `ln`/`log` of a
non-positive argument yield NaN, and the end-to-end evaluations of
`"1 / 0"`, `"sqrt(-1)"`, `"ln(0)"`, `"log(0)"` all return `.ok nan` rather
than an error. -/
theorem undefined_operations_yield_nan (q r : ℚ) (hq : q < 0) (hr : r ≤ 0) :
    (∀ v : JSNum, jsDiv v (.num 0) = .nan) ∧
    applyFunction "sqrt" (.num q) = .ok .nan ∧
    applyFunction "ln" (.num r) = .ok .nan ∧
    applyFunction "log" (.num r) = .ok .nan ∧
    evaluateExpression "1 / 0" [] = .ok .nan ∧
    evaluateExpression "sqrt(-1)" [] = .ok .nan ∧
    evaluateExpression "ln(0)" [] = .ok .nan ∧
    evaluateExpression "log(0)" [] = .ok .nan := by
  refine ⟨fun v => ?_, ?_, ?_, ?_, by decide, by decide, by decide, by decide⟩
  · simp [jsDiv]
  · simp [applyFunction, jsSqrt, hq]
  · simp [applyFunction, jsLn, hr]
  · simp [applyFunction, jsLog, hr]

theorem undefined_operations_yield_nan_witness :
    ((-1 : ℚ) < 0 ∧ (0 : ℚ) ≤ 0) ∧
    (applyFunction "sqrt" (.num (-1)) = .ok .nan ∧
      applyFunction "ln" (.num 0) = .ok .nan ∧
      evaluateExpression "1 / 0" [] = .ok .nan) := by
  have h := undefined_operations_yield_nan (-1) 0 (by decide) (by decide)
  exact ⟨⟨by decide, by decide⟩, h.2.1, h.2.2.1, h.2.2.2.2.1⟩

/-- C6 counterexample: a `variable` token absent from the supplied mapping
does NOT always raise: `"toString" in {}` is true because JavaScript `in`
walks the prototype chain, so `evaluateExpression "toString" {}` returns
the inherited `Object.prototype.toString` value (a non-numeric value,
placeholder in the model) instead of raising `UndefinedVariable`. -/
theorem undefined_variable_counterexample :
    evaluateExpression "toString" [] = .ok (protoLookupValue "toString") ∧
    evaluateExpression "toString" [] ≠ .error (.undefinedVariable "toString") := by
  exact ⟨by decide, by decide⟩

/-- C6 amended: a `variable` token whose name is absent from the supplied
variable mapping AND is not one of the identifier-shaped properties every
plain object inherits from `Object.prototype` raises the
`Undefined variable` error (a hard error, not NaN) the moment the atom
parser reaches it, for any fuel, any trailing tokens and any mapping
without that name; an absent name that is inherited from
`Object.prototype` instead passes the `in` check and does not raise.  In
particular `evaluateExpression "x + 1" {}` raises `Undefined variable: x`. -/
theorem undefined_variable_amended (vars : List (String × JSNum)) (name : String)
    (h1 : List.lookup name vars = none) (h2 : name ∉ OBJECT_PROTO_PROPS) :
    (∀ (fuel : ℕ) (rest : List Token),
      parseGo vars (fuel + 1) .atom (.variable name :: rest) =
        .error (.undefinedVariable name)) ∧
    (∀ (pname : String) (fuel : ℕ) (rest : List Token),
      pname ∈ OBJECT_PROTO_PROPS → List.lookup pname vars = none →
      parseGo vars (fuel + 1) .atom (.variable pname :: rest) =
        .ok (protoLookupValue pname, rest)) ∧
    evaluateExpression "x + 1" [] = .error (.undefinedVariable "x") := by
  refine ⟨fun fuel rest => ?_, fun pname fuel rest hp hl => ?_, by decide⟩
  · simp [parseGo, h1, h2]
  · simp [parseGo, hl, hp]

theorem undefined_variable_amended_witness :
    parseGo [] 1 .atom [.variable "x"] = .error (.undefinedVariable "x") ∧
    parseGo [] 1 .atom [.variable "toString"] = .ok (protoLookupValue "toString", []) ∧
    evaluateExpression "x + 1" [] = .error (.undefinedVariable "x") := by
  have h := undefined_variable_amended [] "x" rfl (by decide)
  exact ⟨h.1 0 [], h.2.1 "toString" 0 [] (by decide) rfl, h.2.2⟩

theorem strLeb_total_aux : ∀ a b : List Char, strLeb a b = true ∨ strLeb b a = true := by
  intro a
  induction a with
  | nil => intro b; left; rfl
  | cons x as ih =>
    intro b
    cases b with
    | nil => right; rfl
    | cons y bs =>
      rcases lt_trichotomy x y with hxy | hxy | hxy
      · left; simp [strLeb, hxy]
      · subst hxy
        rcases ih bs with h | h
        · left; simpa [strLeb] using h
        · right; simpa [strLeb] using h
      · right; simp [strLeb, hxy]

theorem strLeb_trans_aux :
    ∀ a b c : List Char, strLeb a b = true → strLeb b c = true → strLeb a c = true := by
  intro a
  induction a with
  | nil => intro b c _ _; rfl
  | cons x as ih =>
    intro b c h1 h2
    cases b with
    | nil => simp [strLeb] at h1
    | cons y bs =>
      cases c with
      | nil => simp [strLeb] at h2
      | cons z cs =>
        rcases lt_trichotomy x y with hxy | hxy | hxy
        · rcases lt_trichotomy y z with hyz | hyz | hyz
          · simp [strLeb, lt_trans hxy hyz]
          · subst hyz; simp [strLeb, hxy]
          · simp [strLeb, hyz, asymm hyz] at h2
        · subst hxy
          rcases lt_trichotomy x z with hyz | hyz | hyz
          · simp [strLeb, hyz]
          · subst hyz
            simp only [strLeb, lt_irrefl, if_false] at h1 h2 ⊢
            exact ih bs cs h1 h2
          · simp [strLeb, hyz, asymm hyz] at h2
        · simp [strLeb, hxy, asymm hxy] at h1

theorem strLe_total : ∀ a b : String, strLe a b ∨ strLe b a :=
  fun a b => strLeb_total_aux a.data b.data

theorem strLe_trans_thm : ∀ a b c : String, strLe a b → strLe b c → strLe a c :=
  fun a b c => strLeb_trans_aux a.data b.data c.data

theorem mem_foldl_varStep :
    ∀ (ts : List Token) (acc : List String) (n : String),
      n ∈ ts.foldl varStep acc ↔ n ∈ acc ∨ Token.variable n ∈ ts := by
  intro ts
  induction ts with
  | nil => simp
  | cons t ts ih =>
    intro acc n
    rcases t with v | m | c | c | f
    case _ => simp [varStep, ih]
    case _ =>
      by_cases hm : m ∈ acc
      · simp only [List.foldl_cons, varStep, if_pos hm, ih, List.mem_cons]
        constructor
        · rintro (h | h)
          · exact Or.inl h
          · exact Or.inr (Or.inr h)
        · rintro (h | h | h)
          · exact Or.inl h
          · injection h with h; subst h; exact Or.inl hm
          · exact Or.inr h
      · simp only [List.foldl_cons, varStep, if_neg hm, ih, List.mem_append,
          List.mem_cons, List.not_mem_nil, or_false]
        constructor
        · rintro ((h | h) | h)
          · exact Or.inl h
          · subst h; exact Or.inr (Or.inl rfl)
          · exact Or.inr (Or.inr h)
        · rintro (h | h | h)
          · exact Or.inl (Or.inl h)
          · injection h with h; subst h; exact Or.inl (Or.inr rfl)
          · exact Or.inr h
    case _ => simp [varStep, ih]
    case _ => simp [varStep, ih]
    case _ => simp [varStep, ih]

theorem nodup_foldl_varStep :
    ∀ (ts : List Token) (acc : List String), acc.Nodup → (ts.foldl varStep acc).Nodup := by
  intro ts
  induction ts with
  | nil => intro acc h; exact h
  | cons t ts ih =>
    intro acc h
    rcases t with v | m | c | c | f
    case _ => exact ih acc h
    case _ =>
      by_cases hm : m ∈ acc
      · simpa [varStep, hm] using ih acc h
      · simp only [List.foldl_cons, varStep, if_neg hm]
        refine ih (acc ++ [m]) ?_
        simp [List.nodup_append, h, hm]
    case _ => exact ih acc h
    case _ => exact ih acc h
    case _ => exact ih acc h

/-- C7: `extractVariables` never raises (it is a total function whose
`try/catch` is modelled by the match on the tokenizer result): for every
input it returns a deduplicated, lexicographically sorted list; when the
lexer fails it returns the empty list; when the lexer succeeds the result
contains exactly the names of the `variable` tokens (so function names are
excluded); and the two contract examples hold. -/
theorem extractVariables_contract (s : String) :
    List.Sorted strLe (extractVariables s) ∧
    (extractVariables s).Nodup ∧
    (∀ e, tokenize s = .error e → extractVariables s = []) ∧
    (∀ ts, tokenize s = .ok ts →
      ∀ n, n ∈ extractVariables s ↔ Token.variable n ∈ ts) ∧
    extractVariables "@@@" = [] ∧
    extractVariables "sin(x) + cos(y)" = ["x", "y"] := by
  haveI : IsTotal String strLe := ⟨strLe_total⟩
  haveI : IsTrans String strLe := ⟨strLe_trans_thm⟩
  refine ⟨?_, ?_, ?_, ?_, by decide, by decide⟩
  · unfold extractVariables
    cases tokenize s with
    | error e => simp
    | ok ts => exact List.sorted_insertionSort strLe (collectVars ts)
  · unfold extractVariables
    cases tokenize s with
    | error e => simp
    | ok ts =>
      exact ((List.perm_insertionSort strLe (collectVars ts)).nodup_iff).2
        (nodup_foldl_varStep ts [] List.nodup_nil)
  · intro e he; simp [extractVariables, he]
  · intro ts hts n
    simp only [extractVariables, hts, sortStrings]
    rw [(List.perm_insertionSort strLe (collectVars ts)).mem_iff]
    simpa using mem_foldl_varStep ts [] n

theorem extractVariables_contract_witness :
    extractVariables "@@@" = [] ∧
    ("x" ∈ extractVariables "sin(x) + cos(y)" ↔
      Token.variable "x" ∈
        [Token.function "sin", .paren '(', .variable "x", .paren ')',
         .operator '+', .function "cos", .paren '(', .variable "y", .paren ')']) := by
  refine ⟨(extractVariables_contract "@@@").2.2.1 (.unexpectedCharacter '@') (by decide), ?_⟩
  exact (extractVariables_contract "sin(x) + cos(y)").2.2.2.1 _ (by decide) "x"

theorem tokenizeCore_names :
    ∀ (fuel : ℕ) (l : List Char) (toks : List Token),
      tokenizeCore fuel l = .ok toks →
      (∀ n, Token.function n ∈ toks → n ∈ FUNCTIONS) ∧
      (∀ n, Token.variable n ∈ toks → n ∉ FUNCTIONS) := by
  intro fuel
  induction fuel with
  | zero => intro l toks h; simp [tokenizeCore] at h
  | succ fuel ih =>
    intro l toks h
    cases l with
    | nil =>
      simp only [tokenizeCore] at h
      injection h with h
      subst h
      exact ⟨fun n hn => absurd hn (List.not_mem_nil _),
             fun n hn => absurd hn (List.not_mem_nil _)⟩
    | cons c cs =>
      simp only [tokenizeCore] at h
      split_ifs at h with h1 h2 h3 h4 h5
      · cases hrec : tokenizeCore fuel (cs.dropWhile isNumChar) with
        | error e => rw [hrec] at h; cases h
        | ok ts =>
          rw [hrec] at h
          injection h with h
          subst h
          obtain ⟨ihf, ihv⟩ := ih _ _ hrec
          constructor
          · intro n hn
            rcases List.mem_cons.1 hn with h' | h'
            · cases h'
            · exact ihf n h'
          · intro n hn
            rcases List.mem_cons.1 hn with h' | h'
            · cases h'
            · exact ihv n h'
      · cases hrec : tokenizeCore fuel (cs.dropWhile isIdC) with
        | error e => rw [hrec] at h; cases h
        | ok ts =>
          rw [hrec] at h
          injection h with h
          subst h
          obtain ⟨ihf, ihv⟩ := ih _ _ hrec
          constructor
          · intro n hn
            rcases List.mem_cons.1 hn with h' | h'
            · injection h' with h''; subst h''; exact h3
            · exact ihf n h'
          · intro n hn
            rcases List.mem_cons.1 hn with h' | h'
            · cases h'
            · exact ihv n h'
      · cases hrec : tokenizeCore fuel (cs.dropWhile isIdC) with
        | error e => rw [hrec] at h; cases h
        | ok ts =>
          rw [hrec] at h
          injection h with h
          subst h
          obtain ⟨ihf, ihv⟩ := ih _ _ hrec
          constructor
          · intro n hn
            rcases List.mem_cons.1 hn with h' | h'
            · cases h'
            · exact ihf n h'
          · intro n hn
            rcases List.mem_cons.1 hn with h' | h'
            · injection h' with h''; subst h''; exact h3
            · exact ihv n h'
      · cases hrec : tokenizeCore fuel cs with
        | error e => rw [hrec] at h; cases h
        | ok ts =>
          rw [hrec] at h
          injection h with h
          subst h
          obtain ⟨ihf, ihv⟩ := ih _ _ hrec
          constructor
          · intro n hn
            rcases List.mem_cons.1 hn with h' | h'
            · cases h'
            · exact ihf n h'
          · intro n hn
            rcases List.mem_cons.1 hn with h' | h'
            · cases h'
            · exact ihv n h'
      · cases hrec : tokenizeCore fuel cs with
        | error e => rw [hrec] at h; cases h
        | ok ts =>
          rw [hrec] at h
          injection h with h
          subst h
          obtain ⟨ihf, ihv⟩ := ih _ _ hrec
          constructor
          · intro n hn
            rcases List.mem_cons.1 hn with h' | h'
            · cases h'
            · exact ihf n h'
          · intro n hn
            rcases List.mem_cons.1 hn with h' | h'
            · cases h'
            · exact ihv n h'

theorem tokenizeCore_error_shape :
    ∀ (fuel : ℕ) (l : List Char) (e : EvalError),
      tokenizeCore fuel l = .error e → ∀ n, e ≠ .unknownFunction n := by
  intro fuel
  induction fuel with
  | zero =>
    intro l e h n
    simp only [tokenizeCore] at h
    injection h with h
    subst h
    simp
  | succ fuel ih =>
    intro l e h n
    cases l with
    | nil => simp only [tokenizeCore] at h; cases h
    | cons c cs =>
      simp only [tokenizeCore] at h
      split_ifs at h with h1 h2 h3 h4 h5
      · cases hrec : tokenizeCore fuel (cs.dropWhile isNumChar) with
        | error e2 => rw [hrec] at h; injection h with h; subst h; exact ih _ _ hrec n
        | ok ts => rw [hrec] at h; cases h
      · cases hrec : tokenizeCore fuel (cs.dropWhile isIdC) with
        | error e2 => rw [hrec] at h; injection h with h; subst h; exact ih _ _ hrec n
        | ok ts => rw [hrec] at h; cases h
      · cases hrec : tokenizeCore fuel (cs.dropWhile isIdC) with
        | error e2 => rw [hrec] at h; injection h with h; subst h; exact ih _ _ hrec n
        | ok ts => rw [hrec] at h; cases h
      · cases hrec : tokenizeCore fuel cs with
        | error e2 => rw [hrec] at h; injection h with h; subst h; exact ih _ _ hrec n
        | ok ts => rw [hrec] at h; cases h
      · cases hrec : tokenizeCore fuel cs with
        | error e2 => rw [hrec] at h; injection h with h; subst h; exact ih _ _ hrec n
        | ok ts => rw [hrec] at h; cases h
      · injection h with h; subst h; simp

/-- C8: on every input string the lexer accepts, no emitted token is a
`variable` token whose name is one of the registered function names; every
identifier exactly matching a registered name is emitted as a `function`
token (equivalently: every emitted `function` token carries a registered
name, and no `variable` token does). -/
theorem lexer_never_misclassifies (s : String) (toks : List Token)
    (h : tokenize s = .ok toks) :
    (∀ n, Token.variable n ∈ toks → n ∉ FUNCTIONS) ∧
    (∀ n, Token.function n ∈ toks → n ∈ FUNCTIONS) :=
  ⟨(tokenizeCore_names _ _ _ h).2, (tokenizeCore_names _ _ _ h).1⟩

theorem lexer_never_misclassifies_witness :
    "x" ∉ FUNCTIONS ∧ "sin" ∈ FUNCTIONS := by
  have h := lexer_never_misclassifies "sin(x)"
    [.function "sin", .paren '(', .variable "x", .paren ')'] (by decide)
  exact ⟨h.1 "x" (by decide), h.2 "sin" (by decide)⟩

theorem resultOk_error {e : EvalError} (h : ∀ n, e ≠ EvalError.unknownFunction n) :
    ResultOk (.error e) :=
  ⟨fun n hc => h n (by injection hc), fun v rest hc => by cases hc⟩

theorem resultOk_ok {v : JSNum} {rest : List Token} (h : TokensOk rest) :
    ResultOk (.ok (v, rest)) := by
  refine ⟨fun n hc => Except.noConfusion hc, fun v2 r2 hc => ?_⟩
  injection hc with hc
  injection hc with hc1 hc2
  subst hc2
  exact h

theorem resultOk_contGo {r : Except EvalError (JSNum × List Token)}
    {f : JSNum → List Token → Except EvalError (JSNum × List Token)}
    (hr : ResultOk r) (hf : ∀ v rest, TokensOk rest → ResultOk (f v rest)) :
    ResultOk (contGo r f) := by
  cases r with
  | error e => exact hr
  | ok p =>
    obtain ⟨v, rest⟩ := p
    exact hf v rest (hr.2 v rest rfl)

theorem tokensOk_tail {t : Token} {ts : List Token} (h : TokensOk (t :: ts)) :
    TokensOk ts :=
  fun n hn => h n (List.mem_cons_of_mem _ hn)

theorem tokensOk_head_function {name : String} {ts : List Token}
    (h : TokensOk (.function name :: ts)) : name ∈ FUNCTIONS :=
  h name (List.mem_cons_self _ _)

theorem applyFunction_registered (name : String) (h : name ∈ FUNCTIONS) (v : JSNum) :
    ∃ w, applyFunction name v = .ok w := by
  simp only [FUNCTIONS, List.mem_cons, List.not_mem_nil, or_false] at h
  rcases h with rfl | rfl | rfl | rfl | rfl | rfl | rfl <;> exact ⟨_, rfl⟩

theorem parseGo_resultOk (vars : List (String × JSNum)) :
    ∀ (fuel : ℕ) (k : PK) (ts : List Token), TokensOk ts →
      ResultOk (parseGo vars fuel k ts) := by
  intro fuel
  induction fuel with
  | zero =>
    intro k ts _
    exact resultOk_error (by intro n h; cases h)
  | succ fuel ih =>
    intro k ts hts
    cases k with
    | addSub =>
      exact resultOk_contGo (ih .term ts hts) (fun v rest hr => ih (.addSubLoop v) rest hr)
    | addSubLoop left =>
      rcases ts with _ | ⟨t, rest⟩
      · exact resultOk_ok hts
      rcases t with v | m | c | c | f
      case _ => exact resultOk_ok hts
      case _ => exact resultOk_ok hts
      case _ =>
        show ResultOk (if c = '+' then _ else if c = '-' then _ else _)
        by_cases h1 : c = '+'
        · rw [if_pos h1]
          exact resultOk_contGo (ih .term rest (tokensOk_tail hts))
            (fun v r hr => ih (.addSubLoop (jsAdd left v)) r hr)
        · rw [if_neg h1]
          by_cases h2 : c = '-'
          · rw [if_pos h2]
            exact resultOk_contGo (ih .term rest (tokensOk_tail hts))
              (fun v r hr => ih (.addSubLoop (jsSub left v)) r hr)
          · rw [if_neg h2]
            exact resultOk_ok hts
      case _ => exact resultOk_ok hts
      case _ => exact resultOk_ok hts
    | term =>
      exact resultOk_contGo (ih .power ts hts) (fun v rest hr => ih (.termLoop v) rest hr)
    | termLoop left =>
      rcases ts with _ | ⟨t, rest⟩
      · exact resultOk_ok hts
      rcases t with v | m | c | c | f
      case _ => exact resultOk_ok hts
      case _ => exact resultOk_ok hts
      case _ =>
        show ResultOk (if c = '*' then _ else if c = '/' then _ else _)
        by_cases h1 : c = '*'
        · rw [if_pos h1]
          exact resultOk_contGo (ih .power rest (tokensOk_tail hts))
            (fun v r hr => ih (.termLoop (jsMul left v)) r hr)
        · rw [if_neg h1]
          by_cases h2 : c = '/'
          · rw [if_pos h2]
            exact resultOk_contGo (ih .power rest (tokensOk_tail hts))
              (fun v r hr => ih (.termLoop (jsDiv left v)) r hr)
          · rw [if_neg h2]
            exact resultOk_ok hts
      case _ => exact resultOk_ok hts
      case _ => exact resultOk_ok hts
    | power =>
      refine resultOk_contGo (ih .unary ts hts) (fun base r hr => ?_)
      rcases r with _ | ⟨t, r2⟩
      · exact resultOk_ok hr
      rcases t with v | m | c | c | f
      case _ => exact resultOk_ok hr
      case _ => exact resultOk_ok hr
      case _ =>
        show ResultOk (if c = '^' then _ else _)
        by_cases h1 : c = '^'
        · rw [if_pos h1]
          exact resultOk_contGo (ih .power r2 (tokensOk_tail hr))
            (fun v r3 hr3 => resultOk_ok hr3)
        · rw [if_neg h1]
          exact resultOk_ok hr
      case _ => exact resultOk_ok hr
      case _ => exact resultOk_ok hr
    | unary =>
      rcases ts with _ | ⟨t, rest⟩
      · exact ih .atom [] hts
      rcases t with v | m | c | c | f
      case _ => exact ih .atom _ hts
      case _ => exact ih .atom _ hts
      case _ =>
        show ResultOk (if c = '-' then _ else if c = '+' then _ else _)
        by_cases h1 : c = '-'
        · rw [if_pos h1]
          exact resultOk_contGo (ih .unary rest (tokensOk_tail hts))
            (fun v r hr => resultOk_ok hr)
        · rw [if_neg h1]
          by_cases h2 : c = '+'
          · rw [if_pos h2]
            exact ih .unary rest (tokensOk_tail hts)
          · rw [if_neg h2]
            exact ih .atom _ hts
      case _ => exact ih .atom _ hts
      case _ => exact ih .atom _ hts
    | atom =>
      rcases ts with _ | ⟨t, rest⟩
      · exact resultOk_error (by intro n h; cases h)
      rcases t with v | m | c | c | f
      case _ => exact resultOk_ok (tokensOk_tail hts)
      case _ =>
        show ResultOk (match List.lookup m vars with
          | some v => .ok (v, rest)
          | none =>
            if m ∈ OBJECT_PROTO_PROPS then .ok (protoLookupValue m, rest)
            else .error (.undefinedVariable m))
        cases List.lookup m vars with
        | some v => exact resultOk_ok (tokensOk_tail hts)
        | none =>
          by_cases hp : m ∈ OBJECT_PROTO_PROPS
          · rw [if_pos hp]
            exact resultOk_ok (tokensOk_tail hts)
          · rw [if_neg hp]
            exact resultOk_error (by intro n h; cases h)
      case _ => exact resultOk_error (by intro n h; cases h)
      case _ =>
        show ResultOk (if c = '(' then _ else _)
        by_cases h1 : c = '('
        · rw [if_pos h1]
          refine resultOk_contGo (ih .addSub rest (tokensOk_tail hts)) (fun v r2 hr2 => ?_)
          rcases r2 with _ | ⟨t2, r3⟩
          · exact resultOk_error (by intro n h; cases h)
          rcases t2 with v2 | m2 | c2 | c2 | f2
          case _ => exact resultOk_error (by intro n h; cases h)
          case _ => exact resultOk_error (by intro n h; cases h)
          case _ => exact resultOk_error (by intro n h; cases h)
          case _ =>
            show ResultOk (if c2 = ')' then _ else _)
            by_cases h2 : c2 = ')'
            · rw [if_pos h2]
              exact resultOk_ok (tokensOk_tail hr2)
            · rw [if_neg h2]
              exact resultOk_error (by intro n h; cases h)
          case _ => exact resultOk_error (by intro n h; cases h)
        · rw [if_neg h1]
          exact resultOk_error (by intro n h; cases h)
      case _ =>
        have hreg := tokensOk_head_function hts
        rcases rest with _ | ⟨t2, r2⟩
        · exact resultOk_error (by intro n h; cases h)
        rcases t2 with v2 | m2 | c2 | c2 | f2
        case _ => exact resultOk_error (by intro n h; cases h)
        case _ => exact resultOk_error (by intro n h; cases h)
        case _ => exact resultOk_error (by intro n h; cases h)
        case _ =>
          show ResultOk (if c2 = '(' then _ else _)
          by_cases h1 : c2 = '('
          · rw [if_pos h1]
            refine resultOk_contGo (ih .addSub r2 (tokensOk_tail (tokensOk_tail hts)))
              (fun arg r3 hr3 => ?_)
            rcases r3 with _ | ⟨t3, r4⟩
            · exact resultOk_error (by intro n h; cases h)
            rcases t3 with v3 | m3 | c3 | c3 | f3
            case _ => exact resultOk_error (by intro n h; cases h)
            case _ => exact resultOk_error (by intro n h; cases h)
            case _ => exact resultOk_error (by intro n h; cases h)
            case _ =>
              show ResultOk (if c3 = ')' then _ else _)
              by_cases h2 : c3 = ')'
              · rw [if_pos h2]
                obtain ⟨w, hw⟩ := applyFunction_registered f hreg arg
                show ResultOk (match applyFunction f arg with
                  | .error e => .error e
                  | .ok v => .ok (v, r4))
                rw [hw]
                exact resultOk_ok (tokensOk_tail hr3)
              · rw [if_neg h2]
                exact resultOk_error (by intro n h; cases h)
            case _ => exact resultOk_error (by intro n h; cases h)
          · rw [if_neg h1]
            exact resultOk_error (by intro n h; cases h)
        case _ => exact resultOk_error (by intro n h; cases h)

/-- C10: `evaluateExpression` never raises the `Unknown function` error of
`applyFunction`'s default branch: the lexer only emits `function` tokens
whose names are registered in `FUNCTIONS`, and `applyFunction` succeeds on
every registered name, so the default branch is unreachable — for every
input string and every variable mapping. -/
theorem no_unknown_function_error (s : String) (vars : List (String × JSNum))
    (n : String) : evaluateExpression s vars ≠ .error (.unknownFunction n) := by
  cases htok : tokenize s with
  | error e =>
    have heq : evaluateExpression s vars = .error e := by
      simp [evaluateExpression, htok]
    intro hc
    rw [heq] at hc
    injection hc with hc
    exact tokenizeCore_error_shape _ _ _ htok n hc
  | ok toks =>
    have hok : TokensOk toks := fun m hm => (tokenizeCore_names _ _ _ htok).1 m hm
    have hres := parseGo_resultOk vars (10 * toks.length + 10) .addSub toks hok
    cases hp : parseGo vars (10 * toks.length + 10) .addSub toks with
    | error e =>
      have heq : evaluateExpression s vars = .error e := by
        simp [evaluateExpression, htok, hp]
      intro hc
      rw [heq] at hc
      injection hc with hc
      exact hres.1 n (by rw [hp, hc])
    | ok p =>
      obtain ⟨v, rest⟩ := p
      cases rest with
      | nil =>
        have heq : evaluateExpression s vars = .ok v := by
          simp [evaluateExpression, htok, hp]
        intro hc
        rw [heq] at hc
        cases hc
      | cons t r =>
        have heq : evaluateExpression s vars = .error .trailingTokens := by
          simp [evaluateExpression, htok, hp]
        intro hc
        rw [heq] at hc
        injection hc with hc
        cases hc

theorem no_unknown_function_error_witness :
    evaluateExpression "sin(1)" [] ≠ .error (.unknownFunction "sin") :=
  no_unknown_function_error "sin(1)" [] "sin"

end MainTheorems

end Gastown
